import Mathlib

/-!
# Forge: dependency resolution and target execution

A shallow embedding of the core of the `forge` build tool
(`pkg/forgefile/forgefile.go`, `pkg/forgefile/execute/runner.go`,
`pkg/forgefile/execute/executer.go`) together with theorems about it.

Modelling conventions.

* Go `error` values are terms of `Forge.Error`; a Go result `error` is an
  `Option Error` (`none` is `nil`).
* The outside world (file system, processes, log sinks) is an arbitrary type
  `W`; every collaborator call is a function on `W` and effectful code passes
  the world explicitly.  A statement that holds for every `W` and every
  collaborator in particular holds for worlds that record each call.
* `Runner.resolveTarget` is recursive on the dependency graph and need not
  terminate; it is embedded with a fuel argument and `none` means that the
  fuel ran out.
* A `ForgeFile` (a Go map) is an association list read with `List.lookup`.
-/

namespace Forge

/-! ## Errors -/

/-- Go error values that occur in the program. -/
inductive Error where
  /-- Result of `errors.New(msg)` and of `errors.Errorf(format, args...)`. -/
  | New (msg : String)
  /-- Result of `errors.Wrapf(cause, format, args...)`. -/
  | Wrapf (cause : Error) (msg : String)
  /-- An `*exec.ExitError`: the process ran and ended without success. -/
  | ExitError (code : Int)
  /-- The sentinel `fs.ErrNotExist`. -/
  | ErrNotExist
  /-- An `*fs.PathError` around another error. -/
  | PathError (op : String) (path : String) (err : Error)
  /-- Any other error value produced by the operating system. -/
  | Other (msg : String)
  deriving DecidableEq, Repr

/-- The text returned by the Go method `Error()`. -/
def Error.message : Error → String
  | .New msg => msg
  | .Wrapf cause msg => msg ++ ": " ++ cause.message
  | .ExitError code => "exit status " ++ toString code
  | .ErrNotExist => "file does not exist"
  | .PathError op path err => op ++ " " ++ path ++ ": " ++ err.message
  | .Other msg => msg

/-- The test `errors.Is(err, fs.ErrNotExist)`: follows the unwrap chain. -/
def Error.IsNotExist : Error → Bool
  | .ErrNotExist => true
  | .Wrapf cause _ => cause.IsNotExist
  | .PathError _ _ err => err.IsNotExist
  | _ => false

deriving instance DecidableEq for Except

/-! ## `pkg/forgefile/forgefile.go` -/

/-- Marker that can be put before a command to ignore its exit status. -/
def CommandIgnoreErrorPrefix : String := "?"

/-- The Go function `strings.HasPrefix`. -/
def HasPrefix (s pre : String) : Bool := pre.data.isPrefixOf s.data

/-- A shell script line of a target. -/
abbrev ForgeFileCommand := String

/-- Whether the command string starts with the marker. -/
def ForgeFileCommand.ShouldIgnoreError (c : ForgeFileCommand) : Bool :=
  HasPrefix c CommandIgnoreErrorPrefix

/-- The command string to run: the slice `c[1:]` when the marker is there. -/
def ForgeFileCommand.GetCommand (c : ForgeFileCommand) : String :=
  if HasPrefix c CommandIgnoreErrorPrefix then String.mk (c.data.drop 1) else c

/-- Environment settings of a target.  The Go type is a map; the list gives
the entries in the order in which the map happens to be iterated. -/
abbrev ForgeFileCommandEnvironment := List (String × String)

/-- The entries as `KEY=VALUE` strings. -/
def ForgeFileCommandEnvironment.AsSlice (e : ForgeFileCommandEnvironment) : List String :=
  e.map (fun kv => kv.1 ++ "=" ++ kv.2)

/-- The type of a target. -/
abbrev ForgeFileTargetType := String

def ForgeFileTargetTypeFile : ForgeFileTargetType := "file"

def ForgeFileTargetTypeDirectory : ForgeFileTargetType := "directory"

def ForgeFileTargetTypeVirtual : ForgeFileTargetType := "virtual"

/-- A target definition.  `Type_` is the Go field `Type`, a pointer that may
be nil. -/
structure ForgeFileTarget where
  Type_ : Option ForgeFileTargetType
  DependsOn : List String
  Commands : List ForgeFileCommand
  Environment : ForgeFileCommandEnvironment
  deriving DecidableEq, Repr

/-- The Go map from target names to definitions. -/
abbrev ForgeFile := List (String × ForgeFileTarget)

/-! ## `pkg/utils/pointer/pointer.go` -/

/-- The value behind the pointer, or the fallback for a nil pointer. -/
def Deref {T : Type} (ptr : Option T) (fallback : T) : T :=
  match ptr with
  | none => fallback
  | some v => v

/-! ## `pkg/forgefile/execute/runner.go`: resolution -/

def errTargetNotFound (name : String) : String := "target '" ++ name ++ "' not found"

def errResolveTarget (name : String) : String := "failed to resolve target '" ++ name ++ "'"

def errResolveDependency (dep : String) : String :=
  "failed to resolve dependency '" ++ dep ++ "'"

def errDependencySelf : String := "targets cannot depend on themselves"

def errRunTarget (name : String) : String := "failed to run target '" ++ name ++ "'"

def errInvalidTargetType (type name : String) : String :=
  "unkown type '" ++ type ++ "' for target '" ++ name ++ "'"

/-- A resolved target: a definition together with its name. -/
structure Target where
  toForgeFileTarget : ForgeFileTarget
  name : String
  deriving DecidableEq, Repr

/-- An execution plan. -/
abbrev TargetChain := List Target

def TargetChain.ContainsTarget : TargetChain → String → Bool
  | [], _ => false
  | t :: c, name => if t.name = name then true else TargetChain.ContainsTarget c name

/-- Outcome of a resolution run with fuel: `none` when the fuel ran out,
otherwise the Go result pair `(TargetChain, error)`. -/
abbrev Resolution := Option (Except Error TargetChain)

/-- The loop over `ft.DependsOn` in `resolveTarget`; `recurse` is the
recursive call of `resolveTarget`. -/
def resolveDeps (recurse : String → TargetChain → Resolution) (name : String) :
    List String → TargetChain → Resolution
  | [], resolved => some (.ok resolved)
  | dep :: deps, resolved =>
    if dep = name then some (.error (.New errDependencySelf))
    else if resolved.ContainsTarget dep then resolveDeps recurse name deps resolved
    else
      match recurse dep resolved with
      | none => none
      | some (.error err) => some (.error (.Wrapf err (errResolveDependency dep)))
      | some (.ok resolved) => resolveDeps recurse name deps resolved

/-- The method `Runner.resolveTarget`, with fuel bounding the recursion depth. -/
def resolveTarget (ff : ForgeFile) : Nat → String → TargetChain → Resolution
  | 0, _, _ => none
  | fuel + 1, name, resolved =>
    match ff.lookup name with
    | none => some (.error (.New (errTargetNotFound name)))
    | some ft =>
      match resolveDeps (resolveTarget ff fuel) name ft.DependsOn resolved with
      | none => none
      | some (.error err) => some (.error err)
      | some (.ok resolved) => some (.ok (resolved ++ [⟨ft, name⟩]))

/-- The loop of `Runner.buildTargetChain` over the requested names. -/
def buildTargetChainLoop (ff : ForgeFile) (fuel : Nat) :
    List String → TargetChain → Resolution
  | [], resolved => some (.ok resolved)
  | t :: targets, resolved =>
    match resolveTarget ff fuel t resolved with
    | none => none
    | some (.error err) => some (.error (.Wrapf err (errResolveTarget t)))
    | some (.ok resolved) => buildTargetChainLoop ff fuel targets resolved

/-- The method `Runner.buildTargetChain`. -/
def buildTargetChain (ff : ForgeFile) (fuel : Nat) (targets : List String) : Resolution :=
  buildTargetChainLoop ff fuel targets []

/-! ## `pkg/log/logger.go` -/

/-- A value passed to a formatting log call. -/
inductive LogArg where
  | str (s : String)
  | chain (c : TargetChain)
  deriving DecidableEq, Repr

/-- The interface `log.Logger`: every method is an effect on the world. -/
structure Logger (W : Type) where
  Info : String → W → W
  Infof : String → List LogArg → W → W
  Debug : String → W → W
  Debugf : String → List LogArg → W → W

/-- The logger that does nothing. -/
def NewNoopLogger {W : Type} : Logger W :=
  { Info := fun _ w => w
    Infof := fun _ _ w => w
    Debug := fun _ w => w
    Debugf := fun _ _ w => w }

/-! ## `pkg/forgefile/execute/runner.go`: running -/

/-- The interface `CommandExecuter`. -/
structure CommandExecuter (W : Type) where
  Execute : Target → W → Option Error × W

/-- What the runner reads of an `fs.FileInfo`. -/
structure FileInfo where
  IsDir : Bool
  deriving DecidableEq, Repr

/-- What the runner uses of an `afero.Fs`: the call `Stat(path)`. -/
structure Fs (W : Type) where
  Stat : String → W → Except Error FileInfo × W

/-- A Runner executes targets of a ForgeFile. -/
structure Runner (W : Type) where
  commandExecuter : CommandExecuter W
  fs : Fs W
  log : Logger W

def ignoreNotFound (err : Error) : Option Error :=
  if err.IsNotExist then none else some err

/-- The method `Runner.isDirectory`, returning the Go pair `(bool, error)`. -/
def Runner.isDirectory {W : Type} (r : Runner W) (path : String) (w : W) :
    (Bool × Option Error) × W :=
  match r.fs.Stat path w with
  | (.error err, w1) => ((false, ignoreNotFound err), w1)
  | (.ok info, w1) => ((info.IsDir, none), w1)

/-- The method `Runner.isFile`, returning the Go pair `(bool, error)`. -/
def Runner.isFile {W : Type} (r : Runner W) (path : String) (w : W) :
    (Bool × Option Error) × W :=
  match r.fs.Stat path w with
  | (.error err, w1) => ((false, ignoreNotFound err), w1)
  | (.ok info, w1) => ((!info.IsDir, none), w1)

/-- The method `Runner.runTarget`. -/
def Runner.runTarget {W : Type} (r : Runner W) (t : Target) (w : W) : Option Error × W :=
  let targetType := Deref t.toForgeFileTarget.Type_ ForgeFileTargetTypeVirtual
  if targetType = ForgeFileTargetTypeVirtual then
    r.commandExecuter.Execute t w
  else if targetType = ForgeFileTargetTypeFile then
    match r.isFile t.name w with
    | ((_, some err), w1) => (some err, w1)
    | ((true, none), w1) =>
      (none, r.log.Debugf "Target file %s already exists. Skipping." [.str t.name] w1)
    | ((false, none), w1) => r.commandExecuter.Execute t w1
  else if targetType = ForgeFileTargetTypeDirectory then
    match r.isDirectory t.name w with
    | ((_, some err), w1) => (some err, w1)
    | ((true, none), w1) =>
      (none, r.log.Debugf "Target directory %s already exists. Skipping." [.str t.name] w1)
    | ((false, none), w1) => r.commandExecuter.Execute t w1
  else
    (some (.New (errInvalidTargetType targetType t.name)), w)

/-- The loop of `Runner.runTargets` over the chain. -/
def Runner.runTargetsLoop {W : Type} (r : Runner W) : TargetChain → W → Option Error × W
  | [], w => (none, w)
  | t :: chain, w =>
    match r.runTarget t (r.log.Debugf "Executing target '%s'" [.str t.name] w) with
    | (some err, w1) => (some (.Wrapf err (errRunTarget t.name)), w1)
    | (none, w1) => Runner.runTargetsLoop r chain w1

/-- The method `Runner.runTargets`. -/
def Runner.runTargets {W : Type} (r : Runner W) (chain : TargetChain) (w : W) :
    Option Error × W :=
  r.runTargetsLoop chain (r.log.Debugf "Executing target chain %v" [.chain chain] w)

/-- The method `Runner.Run`; `none` when resolution runs out of fuel. -/
def Runner.Run {W : Type} (r : Runner W) (ff : ForgeFile) (fuel : Nat)
    (targets : List String) (w : W) : Option (Option Error × W) :=
  match buildTargetChain ff fuel targets with
  | none => none
  | some (.error err) => some (some err, w)
  | some (.ok chain) => some (r.runTargets chain w)

/-! ## `pkg/forgefile/execute/executer.go` -/

/-- The default shell that is used by the ShellExecutor. -/
def DefaultShell : String := "/bin/sh"

def errRunCommand (i : Nat) : String := "failed to run command at index " ++ toString i

/-- An `exec.Cmd` as the executor sets it up (standard output and error are
those of the calling process). -/
structure Cmd where
  Path : String
  Args : List String
  Env : List String
  deriving DecidableEq, Repr

/-- The operating system as the shell executor uses it: `os.Environ()` and
running a prepared command to completion (`(*exec.Cmd).Run`). -/
structure OS (W : Type) where
  Environ : W → List String
  Run : Cmd → W → Option Error × W

/-- The type assertion `err.(*exec.ExitError)`. -/
def isExitError : Error → Bool
  | .ExitError _ => true
  | _ => false

/-- The loop of `ShellExecutor.Execute` over the commands; `i` is the index
of the first command of the list. -/
def ShellExecutor.ExecuteLoop {W : Type} (os : OS W) (env : List String) :
    Nat → List ForgeFileCommand → W → Option Error × W
  | _, [], w => (none, w)
  | i, cmd :: cmds, w =>
    match os.Run ⟨DefaultShell, ["-c", cmd.GetCommand], env⟩ w with
    | (some err, w1) =>
      if !isExitError err || cmd.ShouldIgnoreError then
        (some (.Wrapf err (errRunCommand i)), w1)
      else ShellExecutor.ExecuteLoop os env (i + 1) cmds w1
    | (none, w1) => ShellExecutor.ExecuteLoop os env (i + 1) cmds w1

/-- The method `ShellExecutor.Execute`. -/
def ShellExecutor.Execute {W : Type} (os : OS W) (t : Target) (w : W) : Option Error × W :=
  let env := os.Environ w ++ t.toForgeFileTarget.Environment.AsSlice
  ShellExecutor.ExecuteLoop os env 0 t.toForgeFileTarget.Commands w

/-- The constructor `NewShellExecutor`, as a `CommandExecuter`. -/
def NewShellExecutor {W : Type} (os : OS W) : CommandExecuter W :=
  { Execute := ShellExecutor.Execute os }

/-- The loop of `DryRunexecutor.Execute` over the commands. -/
def DryRunexecutor.ExecuteLoop {W : Type} (log : Logger W) : List ForgeFileCommand → W → W
  | [], w => w
  | cmd :: cmds, w => DryRunexecutor.ExecuteLoop log cmds (log.Info cmd.GetCommand w)

/-- The method `DryRunexecutor.Execute`. -/
def DryRunexecutor.Execute {W : Type} (log : Logger W) (t : Target) (w : W) :
    Option Error × W :=
  (none, DryRunexecutor.ExecuteLoop log t.toForgeFileTarget.Commands w)

/-- The constructor `NewDryRunexecutor`, as a `CommandExecuter`. -/
def NewDryRunexecutor {W : Type} (logger : Logger W) : CommandExecuter W :=
  { Execute := DryRunexecutor.Execute logger }

/-! ## `pkg/forgefile/execute/runner.go`: construction -/

/-- A RunnerOption modifies a runner upon creation. -/
abbrev RunnerOption (W : Type) := Runner W → Runner W

/-- The function `NewRunner`.  The Go result is a pointer, `none` is the nil
pointer.  `os` is the operating system behind `NewShellExecutor()` and `osFs`
the file system `afero.NewOsFs()`. -/
def NewRunner {W : Type} (os : OS W) (osFs : Fs W) (opts : List (RunnerOption W)) :
    Option (Runner W) :=
  let r : Runner W :=
    { commandExecuter := NewShellExecutor os, fs := osFs, log := NewNoopLogger }
  let _r := opts.foldl (fun r o => o r) r
  none

/-- WithLogger modifies a Runner to use the given Logger. -/
def WithLogger {W : Type} (logger : Logger W) : RunnerOption W :=
  fun r => { r with log := logger }

/-- WithExecuter modifies a Runner to execute commands using the given
CommandExecuter. -/
def WithExecuter {W : Type} (executer : CommandExecuter W) : RunnerOption W :=
  fun r => { r with commandExecuter := executer }

/-- Result of a Go call that either returns or panics. -/
inductive Outcome (α : Type) where
  | returned (a : α)
  | panic (msg : String)

/-- The method `Runner.Run` called through a pointer that may be nil:
`buildTargetChain` does not read the receiver, `runTargets` reads `r.log`
first and panics on a nil receiver. -/
def Runner.RunPtr {W : Type} (r : Option (Runner W)) (ff : ForgeFile) (fuel : Nat)
    (targets : List String) (w : W) : Option (Outcome (Option Error × W)) :=
  match buildTargetChain ff fuel targets with
  | none => none
  | some (.error err) => some (.returned (some err, w))
  | some (.ok chain) =>
    match r with
    | none => some (.panic "invalid memory address or nil pointer dereference")
    | some r => some (.returned (r.runTargets chain w))

/-! ## The dependency relation of a graph -/

/-- The name `d` is listed in the `dependsOn` of the definition of `t`. -/
def DirectDep (ff : ForgeFile) (t d : String) : Prop :=
  ∃ ft, ff.lookup t = some ft ∧ d ∈ ft.DependsOn

/-- The name `d` is a direct or transitive dependency of `t`. -/
def TransDep (ff : ForgeFile) : String → String → Prop :=
  Relation.TransGen (DirectDep ff)

/-- No target of the graph reaches itself through dependencies. -/
def Acyclic (ff : ForgeFile) : Prop := ∀ t, ¬ TransDep ff t t

/-- Some position before `i` of the chain holds a target named `d`. -/
def NamedBefore (ch : TargetChain) (i : Nat) (d : String) : Prop :=
  ∃ j t, j < i ∧ ch[j]? = some t ∧ t.name = d

/-- Every entry of the chain is defined in the graph under its name and each
name in its `dependsOn` occurs at an earlier position. -/
def DepsFirst (ff : ForgeFile) (ch : TargetChain) : Prop :=
  ∀ i t, ch[i]? = some t →
    ∃ ft, ff.lookup t.name = some ft ∧ ∀ d ∈ ft.DependsOn, NamedBefore ch i d

/-! ## Example graphs -/

/-- What a successful resolution of one name guarantees. -/
def ResolveOk (ff : ForgeFile) (recurse : String → TargetChain → Resolution) : Prop :=
  ∀ name resolved ch, recurse name resolved = some (.ok ch) → DepsFirst ff resolved →
    DepsFirst ff ch ∧ resolved <+: ch ∧ ch.ContainsTarget name = true

/-- Target `A` of the example graph: no dependencies. -/
def exA : ForgeFileTarget := ⟨none, [], ["echo A"], []⟩

/-- Target `B` of the example graph: depends on `A`. -/
def exB : ForgeFileTarget := ⟨none, ["A"], ["false", "?exit 1", "echo done"], []⟩

/-- The example graph with targets `A` and `B`. -/
def exGraph : ForgeFile := [("A", exA), ("B", exB)]

/-- A target with a single command that carries the marker. -/
def exMarked : Target := ⟨⟨none, [], ["?exit 1", "echo done"], []⟩, "M"⟩

/-- An example operating system whose world is the list of the scripts handed
to the shell so far.  The scripts `false` and `exit 1` end with exit status 1,
the script `nosh` cannot be started, every other script succeeds. -/
def exOS : OS (List String) :=
  { Environ := fun _ => []
    Run := fun cmd w =>
      match cmd.Args with
      | [_, script] =>
        if script = "false" ∨ script = "exit 1" then (some (.ExitError 1), w ++ [script])
        else if script = "nosh" then (some (.Other "fork/exec /bin/sh: no such file"), w)
        else (none, w ++ [script])
      | _ => (some (.Other "bad arguments"), w) }

/-- The innermost error of a chain of `Wrapf` (the `errors.Cause` of it). -/
def Error.Cause : Error → Error
  | .Wrapf cause _ => cause.Cause
  | e => e

/-- A graph with self-dependent targets: `S` lists itself after the existing
`A`, and `X` lists itself after the missing name `m`. -/
def exSelfGraph : ForgeFile :=
  [("A", exA), ("S", ⟨none, ["A", "S", "m"], [], []⟩), ("X", ⟨none, ["m", "X"], [], []⟩)]

/-- A call recorded by the example runner. -/
inductive Call where
  | Stat (path : String)
  | Execute (name : String)
  deriving DecidableEq, Repr

/-- An example runner whose world is the list of the calls made so far to the
file system and to the executor.  `files` lists the existing paths, each with
its is-directory flag; the executor fails on the targets named in `failing`;
the logger is the no-op logger. -/
def exRunner (files : List (String × Bool)) (failing : List String) : Runner (List Call) :=
  { commandExecuter :=
      { Execute := fun t w =>
          (if t.name ∈ failing then some (.Other "boom") else none, w ++ [.Execute t.name]) }
    fs :=
      { Stat := fun path w =>
          (match files.lookup path with
            | some d => .ok ⟨d⟩
            | none => .error (.PathError "stat" path .ErrNotExist),
           w ++ [.Stat path]) }
    log := NewNoopLogger }

/-- A target of the given type with one command. -/
def exTyped (type name : String) : Target := ⟨⟨some type, [], ["touch " ++ name], []⟩, name⟩

/-- A logger whose world is the list of the messages sent to `Info` so far;
the other sinks leave the world as it is. -/
def exInfoLogger : Logger (List String) :=
  { Info := fun msg w => w ++ [msg]
    Infof := fun _ _ w => w
    Debug := fun _ w => w
    Debugf := fun _ _ w => w }

/-- The names of `anc` are distinct keys of the graph and each of them reaches
`name` through dependencies: `anc` is the stack of targets under resolution
when `resolveTarget` is called for `name`. -/
def Ancestors (ff : ForgeFile) (anc : List String) (name : String) : Prop :=
  anc.Nodup ∧ (∀ a ∈ anc, a ∈ ff.map Prod.fst) ∧ ∀ a ∈ anc, TransDep ff a name

/-- The graph with a dependency cycle of length 2. -/
def exCycle : ForgeFile := [("A", ⟨none, ["B"], [], []⟩), ("B", ⟨none, ["A"], [], []⟩)]

/-- A graph whose only target lists two names that are not keys. -/
def exMissing : ForgeFile := [("B", ⟨none, ["A1", "A2"], [], []⟩)]

/-- The graph of the example of the claim: `B` depends on the absent `A`. -/
def exMissingOne : ForgeFile := [("B", ⟨none, ["A"], [], []⟩)]

/-- A graph with a file target `out` that depends on the virtual target
`dep`. -/
def exFileGraph : ForgeFile :=
  [("dep", ⟨none, [], ["echo dep"], []⟩), ("out", ⟨some "file", ["dep"], ["touch out"], []⟩)]

/-- The names `path` lead from `name` to `d` through dependencies: `name`
lists the first name of `path`, each name of `path` lists the next one, and
the last one (or `name` itself when `path` is empty) lists `d`. -/
def DepPath (ff : ForgeFile) : String → List String → String → Prop
  | name, [], d => DirectDep ff name d
  | name, m :: path, d => DirectDep ff name m ∧ DepPath ff m path d

/-- The error that `resolveTarget` returns for a target from which the absent
name `d` is met along `path`: `target 'd' not found`, wrapped with
`failed to resolve dependency 'd'` and then with the dependency context of
each name of `path`, innermost last. -/
def missingDepError : List String → String → Error
  | [], d => .Wrapf (.New (errTargetNotFound d)) (errResolveDependency d)
  | m :: path, d => .Wrapf (missingDepError path d) (errResolveDependency m)

/-! ## Lemmas on chains -/

theorem containsTarget_iff (ch : TargetChain) (name : String) :
    ch.ContainsTarget name = true ↔ ∃ t ∈ ch, t.name = name := by
  induction ch with
  | nil => simp [TargetChain.ContainsTarget]
  | cons t ch ih =>
    by_cases h : t.name = name
    · simp [TargetChain.ContainsTarget, h]
    · simp [TargetChain.ContainsTarget, h, ih]

theorem containsTarget_iff_namedBefore (ch : TargetChain) (name : String) :
    ch.ContainsTarget name = true ↔ NamedBefore ch ch.length name := by
  rw [containsTarget_iff]
  constructor
  · rintro ⟨t, ht, hn⟩
    obtain ⟨j, hj, hjt⟩ := List.getElem_of_mem ht
    exact ⟨j, t, hj, by rw [List.getElem?_eq_getElem hj, hjt], hn⟩
  · rintro ⟨j, t, _, hjt, hn⟩
    exact ⟨t, List.getElem?_mem hjt, hn⟩

theorem containsTarget_of_prefix {ch c1 : TargetChain} {name : String}
    (hp : ch <+: c1) (h : ch.ContainsTarget name = true) : c1.ContainsTarget name = true := by
  rw [containsTarget_iff] at h ⊢
  obtain ⟨t, ht, hn⟩ := h
  exact ⟨t, hp.subset ht, hn⟩

theorem containsTarget_snoc (ch : TargetChain) (t : Target) :
    TargetChain.ContainsTarget (ch ++ [t]) t.name = true := by
  rw [containsTarget_iff]
  exact ⟨t, by simp, rfl⟩

theorem depsFirst_nil (ff : ForgeFile) : DepsFirst ff [] := by
  intro i t h
  simp at h

theorem depsFirst_snoc {ff : ForgeFile} {ch : TargetChain} {ft : ForgeFileTarget}
    {name : String} (hc : DepsFirst ff ch) (hl : ff.lookup name = some ft)
    (hd : ∀ d ∈ ft.DependsOn, ch.ContainsTarget d = true) :
    DepsFirst ff (ch ++ [⟨ft, name⟩]) := by
  intro i t hi
  rcases Nat.lt_trichotomy i ch.length with hlt | heq | hgt
  · rw [List.getElem?_append_left hlt] at hi
    obtain ⟨ft1, hl1, hd1⟩ := hc i t hi
    refine ⟨ft1, hl1, fun d hdm => ?_⟩
    obtain ⟨j, t1, hj, hjt, hn⟩ := hd1 d hdm
    exact ⟨j, t1, hj, by rw [List.getElem?_append_left (by omega)]; exact hjt, hn⟩
  · subst heq
    simp at hi
    subst hi
    refine ⟨ft, hl, fun d hdm => ?_⟩
    obtain ⟨j, t1, hj, hjt, hn⟩ := (containsTarget_iff_namedBefore ch d).1 (hd d hdm)
    exact ⟨j, t1, hj, by rw [List.getElem?_append_left hj]; exact hjt, hn⟩
  · rw [List.getElem?_eq_none (by simp; omega)] at hi
    simp at hi

/-- In a chain with `DepsFirst`, transitive dependencies come earlier too. -/
theorem depsFirst_trans {ff : ForgeFile} {ch : TargetChain} (hc : DepsFirst ff ch)
    {i : Nat} {t : Target} (hi : ch[i]? = some t) {d : String}
    (hd : TransDep ff t.name d) : NamedBefore ch i d := by
  induction hd with
  | single h =>
    obtain ⟨ft, hl, hdm⟩ := h
    obtain ⟨ft1, hl1, hd1⟩ := hc i t hi
    rw [hl] at hl1
    cases hl1
    exact hd1 _ hdm
  | tail _ h ih =>
    obtain ⟨j, t1, hj, hjt, hn⟩ := ih
    obtain ⟨ft, hl, hdm⟩ := h
    obtain ⟨ft1, hl1, hd1⟩ := hc j t1 hjt
    rw [hn, hl] at hl1
    cases hl1
    obtain ⟨k, t2, hk, hkt, hn2⟩ := hd1 _ hdm
    exact ⟨k, t2, by omega, hkt, hn2⟩

/-! ## Lemmas on resolution -/

theorem resolveDeps_ok {ff : ForgeFile} {recurse : String → TargetChain → Resolution}
    (hrec : ResolveOk ff recurse) (name : String) (deps : List String) :
    ∀ resolved ch, resolveDeps recurse name deps resolved = some (.ok ch) →
      DepsFirst ff resolved →
      DepsFirst ff ch ∧ resolved <+: ch ∧ ∀ d ∈ deps, ch.ContainsTarget d = true := by
  induction deps with
  | nil =>
    intro resolved ch h hinv
    simp [resolveDeps] at h
    subst h
    exact ⟨hinv, List.prefix_refl _, by simp⟩
  | cons dep deps ih =>
    intro resolved ch h hinv
    rw [resolveDeps] at h
    split_ifs at h with h1 h2
    · simp at h
    · obtain ⟨hc, hp, hall⟩ := ih resolved ch h hinv
      refine ⟨hc, hp, fun d hd => ?_⟩
      rcases List.mem_cons.1 hd with rfl | hd
      · exact containsTarget_of_prefix hp h2
      · exact hall d hd
    · cases hr : recurse dep resolved with
      | none => simp [hr] at h
      | some res =>
        cases res with
        | error e => simp [hr] at h
        | ok c1 =>
          simp only [hr] at h
          obtain ⟨hc1, hp1, hdep⟩ := hrec dep resolved c1 hr hinv
          obtain ⟨hc, hp, hall⟩ := ih c1 ch h hc1
          refine ⟨hc, hp1.trans hp, fun d hd => ?_⟩
          rcases List.mem_cons.1 hd with rfl | hd
          · exact containsTarget_of_prefix hp hdep
          · exact hall d hd

theorem resolveTarget_ok (ff : ForgeFile) (fuel : Nat) : ResolveOk ff (resolveTarget ff fuel) := by
  induction fuel with
  | zero =>
    intro name resolved ch h
    simp [resolveTarget] at h
  | succ fuel ih =>
    intro name resolved ch h hinv
    rw [resolveTarget] at h
    cases hl : ff.lookup name with
    | none => simp [hl] at h
    | some ft =>
      simp only [hl] at h
      cases hr : resolveDeps (resolveTarget ff fuel) name ft.DependsOn resolved with
      | none => simp [hr] at h
      | some res =>
        cases res with
        | error e => simp [hr] at h
        | ok c1 =>
          simp only [hr, Option.some.injEq, Except.ok.injEq] at h
          subst h
          obtain ⟨hc1, hp1, hall⟩ := resolveDeps_ok ih name ft.DependsOn resolved c1 hr hinv
          exact ⟨depsFirst_snoc hc1 hl hall, hp1.trans (List.prefix_append _ _),
            containsTarget_snoc c1 ⟨ft, name⟩⟩

theorem buildTargetChainLoop_ok (ff : ForgeFile) (fuel : Nat) (targets : List String) :
    ∀ resolved ch, buildTargetChainLoop ff fuel targets resolved = some (.ok ch) →
      DepsFirst ff resolved →
      DepsFirst ff ch ∧ resolved <+: ch ∧ ∀ t ∈ targets, ch.ContainsTarget t = true := by
  induction targets with
  | nil =>
    intro resolved ch h hinv
    simp [buildTargetChainLoop] at h
    subst h
    exact ⟨hinv, List.prefix_refl _, by simp⟩
  | cons t targets ih =>
    intro resolved ch h hinv
    rw [buildTargetChainLoop] at h
    cases hr : resolveTarget ff fuel t resolved with
    | none => simp [hr] at h
    | some res =>
      cases res with
      | error e => simp [hr] at h
      | ok c1 =>
        simp only [hr] at h
        obtain ⟨hc1, hp1, hdep⟩ := resolveTarget_ok ff fuel t resolved c1 hr hinv
        obtain ⟨hc, hp, hall⟩ := ih c1 ch h hc1
        refine ⟨hc, hp1.trans hp, fun d hd => ?_⟩
        rcases List.mem_cons.1 hd with rfl | hd
        · exact containsTarget_of_prefix hp hdep
        · exact hall d hd

/-! ## Theorems on resolution -/

/-- C1: when `buildTargetChain` succeeds, every entry of the returned chain is
preceded by all of its transitive dependencies: if position `i` holds a target
named `t.name` and `d` is a direct or transitive dependency of that name in the
graph, then some position `j < i` holds a target named `d`.  This holds for
every graph on which resolution succeeds, the acyclic ones included. -/
theorem C1_dependencies_precede (ff : ForgeFile) (fuel : Nat) (targets : List String)
    (chain : TargetChain) (h : buildTargetChain ff fuel targets = some (.ok chain))
    (i : Nat) (t : Target) (hi : chain[i]? = some t) (d : String)
    (hd : TransDep ff t.name d) :
    ∃ j t1, j < i ∧ chain[j]? = some t1 ∧ t1.name = d :=
  depsFirst_trans (buildTargetChainLoop_ok ff fuel targets [] chain h (depsFirst_nil ff)).1 hi hd

/-- C1 at the example graph: the request `B` yields the chain `A, B`, and the
dependency `A` of the entry at position 1 is found at position 0. -/
theorem C1_dependencies_precede_witness :
    buildTargetChain exGraph 2 ["B"] = some (.ok [⟨exA, "A"⟩, ⟨exB, "B"⟩]) ∧
    TransDep exGraph "B" "A" ∧
    ∃ j t1, j < 1 ∧ [(⟨exA, "A"⟩ : Target), ⟨exB, "B"⟩][j]? = some t1 ∧ t1.name = "A" :=
  have hd : TransDep exGraph "B" "A" :=
    Relation.TransGen.single ⟨exB, by decide, by decide⟩
  ⟨by decide, hd,
    C1_dependencies_precede exGraph 2 ["B"] [⟨exA, "A"⟩, ⟨exB, "B"⟩] (by decide) 1 ⟨exB, "B"⟩
      (by decide) "A" hd⟩

theorem directDep_exGraph {t d : String} (h : DirectDep exGraph t d) : t = "B" ∧ d = "A" := by
  obtain ⟨ft, hl, hd⟩ := h
  by_cases hA : t = "A"
  · subst hA
    have : ft = exA := by simpa [exGraph, List.lookup] using hl.symm
    subst this
    simp [exA] at hd
  · by_cases hB : t = "B"
    · subst hB
      have : ft = exB := by simpa [exGraph, List.lookup] using hl.symm
      subst this
      simpa [exB] using hd
    · have hA1 : (t == "A") = false := by simpa using hA
      have hB1 : (t == "B") = false := by simpa using hB
      simp [exGraph, List.lookup, hA1, hB1] at hl

theorem acyclic_exGraph : Acyclic exGraph := by
  have key : ∀ t d, TransDep exGraph t d → t = "B" ∧ d = "A" := by
    intro t d h
    induction h with
    | single h => exact directDep_exGraph h
    | tail _ h ih =>
      have h2 := (directDep_exGraph h).1
      rw [ih.2] at h2
      exact absurd h2 (by decide)
  intro t h
  obtain ⟨h1, h2⟩ := key t t h
  rw [h1] at h2
  exact absurd h2 (by decide)

/-- C2: the example graph is acyclic and has no dependency on `A`, yet the
request list `A, A` resolves, for every positive fuel, to a chain that holds
the target `A` twice: `buildTargetChain` appends a requested name without
looking whether the chain already contains it. -/
theorem C2_requested_twice_appended_twice :
    Acyclic exGraph ∧
    ∀ fuel, buildTargetChain exGraph (fuel + 1) ["A", "A"] =
      some (.ok [⟨exA, "A"⟩, ⟨exA, "A"⟩]) := by
  refine ⟨acyclic_exGraph, fun fuel => ?_⟩
  simp [buildTargetChain, buildTargetChainLoop, resolveTarget, exGraph, List.lookup, exA,
    resolveDeps]

/-! ## Theorems on the shell executor -/

/-- C3: on the example target `B` with commands `false`, `?exit 1`,
`echo done`, where `false` ends with exit status 1 and carries no marker,
`ShellExecutor.Execute` does not stop at index 0: it goes on to run `exit 1`
and returns the error of index 1. -/
theorem C3_unmarked_failure_not_aborting :
    ForgeFileCommand.ShouldIgnoreError "false" = false ∧
    exOS.Run ⟨DefaultShell, ["-c", "false"], []⟩ [] = (some (.ExitError 1), ["false"]) ∧
    ShellExecutor.Execute exOS ⟨exB, "B"⟩ [] =
      (some (.Wrapf (.ExitError 1) (errRunCommand 1)), ["false", "exit 1"]) := by
  decide

/-- C4: on a target with commands `?exit 1`, `echo done`, where the marked
command ends with exit status 1, `ShellExecutor.Execute` returns the error of
index 0 and does not run `echo done`. -/
theorem C4_marked_failure_aborting :
    ForgeFileCommand.ShouldIgnoreError "?exit 1" = true ∧
    exOS.Run ⟨DefaultShell, ["-c", "exit 1"], []⟩ [] = (some (.ExitError 1), ["exit 1"]) ∧
    ShellExecutor.Execute exOS exMarked [] =
      (some (.Wrapf (.ExitError 1) (errRunCommand 0)), ["exit 1"]) := by
  decide

theorem buildTargetChainLoop_append (ff : ForgeFile) (fuel : Nat) (pre rest : List String) :
    ∀ resolved ch, buildTargetChainLoop ff fuel pre resolved = some (.ok ch) →
      buildTargetChainLoop ff fuel (pre ++ rest) resolved =
        buildTargetChainLoop ff fuel rest ch := by
  induction pre with
  | nil =>
    intro resolved ch h
    simp [buildTargetChainLoop] at h
    simp [h]
  | cons t pre ih =>
    intro resolved ch h
    rw [buildTargetChainLoop] at h
    rw [List.cons_append, buildTargetChainLoop]
    cases hr : resolveTarget ff fuel t resolved with
    | none => simp [hr] at h
    | some res =>
      cases res with
      | error e => simp [hr] at h
      | ok c1 =>
        simp only [hr] at h ⊢
        exact ih c1 ch h

theorem buildTargetChain_absent {ff : ForgeFile} {n : String} (hn : ff.lookup n = none)
    {targets : List String} (hmem : n ∈ targets) (fuel : Nat) (ch : TargetChain) :
    buildTargetChain ff fuel targets ≠ some (.ok ch) := by
  intro h
  obtain ⟨hinv, _, hall⟩ := buildTargetChainLoop_ok ff fuel targets [] ch h (depsFirst_nil ff)
  obtain ⟨j, t, _, hjt, hname⟩ := (containsTarget_iff_namedBefore ch n).1 (hall n hmem)
  obtain ⟨ft, hl, _⟩ := hinv j t hjt
  rw [hname, hn] at hl
  cases hl

/-- C6, as refuted: the request list `S, y` contains the name `y`, which is
not a key of the graph, but `Run` fails with the self-dependency error of the
target `S` requested before it; with no fuel does it return the
target-not-found error that carries `y`. -/
theorem C6_not_every_absent_name_reported :
    "y" ∈ ["S", "y"] ∧ List.lookup "y" exSelfGraph = none ∧
    (exRunner [] []).Run exSelfGraph 2 ["S", "y"] [] =
      some (some (.Wrapf (.New errDependencySelf) (errResolveTarget "S")), []) ∧
    ¬ ∃ fuel, (exRunner [] []).Run exSelfGraph fuel ["S", "y"] [] =
      some (some (.Wrapf (.New (errTargetNotFound "y")) (errResolveTarget "y")), []) := by
  refine ⟨by decide, by decide, by decide, ?_⟩
  rintro ⟨fuel, h⟩
  rcases fuel with _ | _ | fuel
  · exact absurd h (by decide)
  · exact absurd h (by decide)
  · have hx : (exRunner [] []).Run exSelfGraph (fuel + 2) ["S", "y"] [] =
        some (some (.Wrapf (.New errDependencySelf) (errResolveTarget "S")), []) := rfl
    rw [hx] at h
    exact absurd h (by decide)

/-- The loop over the requested names fails exactly with the error of the
first requested name that fails to resolve, wrapped with its name. -/
theorem buildTargetChainLoop_first_failure (ff : ForgeFile) (fuel : Nat)
    (pre post : List String) (t : String) (resolved ch : TargetChain) (err : Error)
    (hpre : buildTargetChainLoop ff fuel pre resolved = some (.ok ch))
    (ht : resolveTarget ff fuel t ch = some (.error err)) :
    buildTargetChainLoop ff fuel (pre ++ t :: post) resolved =
      some (.error (.Wrapf err (errResolveTarget t))) := by
  rw [buildTargetChainLoop_append ff fuel pre (t :: post) resolved ch hpre,
    buildTargetChainLoop, ht]

theorem buildTargetChainLoop_error (ff : ForgeFile) (fuel : Nat) (targets : List String) :
    ∀ resolved err, buildTargetChainLoop ff fuel targets resolved = some (.error err) →
      ∃ pre t post ch e, targets = pre ++ t :: post ∧
        buildTargetChainLoop ff fuel pre resolved = some (.ok ch) ∧
        resolveTarget ff fuel t ch = some (.error e) ∧
        err = .Wrapf e (errResolveTarget t) := by
  induction targets with
  | nil =>
    intro resolved err h
    simp [buildTargetChainLoop] at h
  | cons t targets ih =>
    intro resolved err h
    rw [buildTargetChainLoop] at h
    cases hr : resolveTarget ff fuel t resolved with
    | none => simp [hr] at h
    | some res =>
      cases res with
      | error e =>
        simp only [hr, Option.some.injEq, Except.error.injEq] at h
        exact ⟨[], t, targets, resolved, e, rfl, rfl, hr, h.symm⟩
      | ok c1 =>
        simp only [hr] at h
        obtain ⟨pre, t1, post, ch, e, hsplit, hpre, ht1, herr⟩ := ih c1 err h
        refine ⟨t :: pre, t1, post, ch, e, by rw [hsplit]; rfl, ?_, ht1, herr⟩
        rw [buildTargetChainLoop, hr]
        exact hpre

/-- C6, amended: let the request list contain a name `n` that is not a key of
the graph.  Then `Run` never reports success and leaves the world untouched,
so that neither the executor nor the file system is called, not even for the
requested targets that precede `n`: whenever resolution returns, `Run` returns
an error together with the world it started from, and that error is the
resolution error of the first requested name `t` that fails to resolve (the
names requested before `t` resolve), wrapped with
`failed to resolve target 't'`.  Conversely, when the names requested before
some `t` resolve and `t` fails to resolve, `Run` returns that wrapped error.
In particular, if the names requested before `n` resolve, `Run` returns the
error `target 'n' not found` wrapped with `failed to resolve target 'n'`. -/
theorem C6_absent_request_fails {W : Type} (r : Runner W) (ff : ForgeFile) (n : String)
    (hn : ff.lookup n = none) (targets : List String) (hmem : n ∈ targets) (w : W) :
    (∀ fuel, r.Run ff fuel targets w = none ∨
      ∃ pre t post ch err, targets = pre ++ t :: post ∧
        buildTargetChain ff fuel pre = some (.ok ch) ∧
        resolveTarget ff fuel t ch = some (.error err) ∧
        r.Run ff fuel targets w = some (some (.Wrapf err (errResolveTarget t)), w)) ∧
    (∀ fuel pre post ch, targets = pre ++ n :: post →
      buildTargetChain ff (fuel + 1) pre = some (.ok ch) →
      r.Run ff (fuel + 1) targets w =
        some (some (.Wrapf (.New (errTargetNotFound n)) (errResolveTarget n)), w)) ∧
    (∀ fuel pre t post ch err, targets = pre ++ t :: post →
      buildTargetChain ff fuel pre = some (.ok ch) →
      resolveTarget ff fuel t ch = some (.error err) →
      r.Run ff fuel targets w = some (some (.Wrapf err (errResolveTarget t)), w)) := by
  refine ⟨?_, ?_, ?_⟩
  · intro fuel
    cases hb : buildTargetChain ff fuel targets with
    | none => exact Or.inl (by simp [Runner.Run, hb])
    | some res =>
      cases res with
      | error e =>
        obtain ⟨pre, t, post, ch, e1, hsplit, hpre, ht, herr⟩ :=
          buildTargetChainLoop_error ff fuel targets [] e hb
        exact Or.inr ⟨pre, t, post, ch, e1, hsplit, hpre, ht, by simp [Runner.Run, hb, herr]⟩
      | ok ch => exact absurd hb (buildTargetChain_absent hn hmem fuel ch)
  · intro fuel pre post ch hsplit hpre
    subst hsplit
    unfold Runner.Run buildTargetChain at *
    rw [buildTargetChainLoop_append ff (fuel + 1) pre (n :: post) [] ch hpre]
    simp [buildTargetChainLoop, resolveTarget, hn]
  · intro fuel pre t post ch err hsplit hpre ht
    subst hsplit
    have := buildTargetChainLoop_first_failure ff fuel pre post t [] ch err hpre ht
    simp [Runner.Run, buildTargetChain, this]

/-- C6 on examples: the request list `A, zzz` on the example graph fails with
the error for `zzz` and the recording world stays empty; the request list
`A, X, y`, where `X` fails to resolve before the absent `y` is looked at,
fails with the error of `X` wrapped with the name `X`. -/
theorem C6_absent_request_fails_witness :
    (exRunner [] []).Run exGraph 1 ["A", "zzz"] [] =
      some (some (.Wrapf (.New (errTargetNotFound "zzz")) (errResolveTarget "zzz")), []) ∧
    (exRunner [] []).Run exSelfGraph 2 ["A", "X", "y"] [] =
      some (some (.Wrapf (.Wrapf (.New (errTargetNotFound "m")) (errResolveDependency "m"))
        (errResolveTarget "X")), []) :=
  ⟨(C6_absent_request_fails (exRunner [] []) exGraph "zzz" (by decide) ["A", "zzz"] (by decide)
      []).2.1 0 ["A"] [] [⟨exA, "A"⟩] (by decide) (by decide),
   (C6_absent_request_fails (exRunner [] []) exSelfGraph "y" (by decide) ["A", "X", "y"]
      (by decide) []).2.2 2 ["A"] "X" ["y"] [⟨exA, "A"⟩]
      (.Wrapf (.New (errTargetNotFound "m")) (errResolveDependency "m")) (by decide) (by decide)
      (by decide)⟩

theorem resolveDeps_append (recurse : String → TargetChain → Resolution) (name : String)
    (pre rest : List String) :
    ∀ resolved ch, resolveDeps recurse name pre resolved = some (.ok ch) →
      resolveDeps recurse name (pre ++ rest) resolved = resolveDeps recurse name rest ch := by
  induction pre with
  | nil =>
    intro resolved ch h
    simp [resolveDeps] at h
    simp [h]
  | cons dep pre ih =>
    intro resolved ch h
    rw [resolveDeps] at h
    rw [List.cons_append, resolveDeps]
    split_ifs at h ⊢ with h1 h2
    · simp at h
    · exact ih resolved ch h
    · cases hr : recurse dep resolved with
      | none => simp [hr] at h
      | some res =>
        cases res with
        | error e => simp [hr] at h
        | ok c1 =>
          simp only [hr] at h ⊢
          exact ih c1 ch h

/-- C8: for a target of type `file` named `t.name`: if `Stat(t.name)` reports
an entry that is not a directory, `runTarget` returns success and the world is
the one left by `Stat` and the debug message, whatever the executor is, which
is therefore not called; if `Stat` reports that nothing exists there, or
reports a directory, `runTarget` is one call of the executor with the target,
and returns its result. -/
theorem C8_file_target {W : Type} (r : Runner W) (t : Target)
    (ht : t.toForgeFileTarget.Type_ = some ForgeFileTargetTypeFile) (w w1 : W) :
    (r.fs.Stat t.name w = (.ok ⟨false⟩, w1) →
      r.runTarget t w =
        (none, r.log.Debugf "Target file %s already exists. Skipping." [.str t.name] w1)) ∧
    (∀ err, r.fs.Stat t.name w = (.error err, w1) → err.IsNotExist = true →
      r.runTarget t w = r.commandExecuter.Execute t w1) ∧
    (r.fs.Stat t.name w = (.ok ⟨true⟩, w1) →
      r.runTarget t w = r.commandExecuter.Execute t w1) := by
  have h1 : ForgeFileTargetTypeFile ≠ ForgeFileTargetTypeVirtual := by decide
  refine ⟨fun h => ?_, fun err h he => ?_, fun h => ?_⟩
  · simp [Runner.runTarget, Runner.isFile, ht, Deref, h1, h]
  · simp [Runner.runTarget, Runner.isFile, ht, Deref, h1, h, ignoreNotFound, he]
  · simp [Runner.runTarget, Runner.isFile, ht, Deref, h1, h]

/-- C8 on the example runner: with a file at `A` the file target `A` is
skipped after one `Stat`; with nothing at `A`, and with a directory at `A`,
the executor is called once after the `Stat`. -/
theorem C8_file_target_witness :
    (exRunner [("A", false)] []).runTarget (exTyped "file" "A") [] = (none, [.Stat "A"]) ∧
    (exRunner [] []).runTarget (exTyped "file" "A") [] = (none, [.Stat "A", .Execute "A"]) ∧
    (exRunner [("A", true)] []).runTarget (exTyped "file" "A") [] =
      (none, [.Stat "A", .Execute "A"]) :=
  ⟨(C8_file_target (exRunner [("A", false)] []) (exTyped "file" "A") (by decide) []
      [.Stat "A"]).1 (by decide),
   (C8_file_target (exRunner [] []) (exTyped "file" "A") (by decide) []
      [.Stat "A"]).2.1 (.PathError "stat" "A" .ErrNotExist) (by decide) (by decide),
   (C8_file_target (exRunner [("A", true)] []) (exTyped "file" "A") (by decide) []
      [.Stat "A"]).2.2 (by decide)⟩

/-- C9: for a target of type `directory` named `t.name`: if `Stat(t.name)`
reports a directory, `runTarget` returns success and the world is the one left
by `Stat` and the debug message, whatever the executor is, which is therefore
not called; if `Stat` reports that nothing exists there, or reports an entry
that is not a directory, `runTarget` is one call of the executor with the
target, and returns its result. -/
theorem C9_directory_target {W : Type} (r : Runner W) (t : Target)
    (ht : t.toForgeFileTarget.Type_ = some ForgeFileTargetTypeDirectory) (w w1 : W) :
    (r.fs.Stat t.name w = (.ok ⟨true⟩, w1) →
      r.runTarget t w =
        (none, r.log.Debugf "Target directory %s already exists. Skipping." [.str t.name] w1)) ∧
    (∀ err, r.fs.Stat t.name w = (.error err, w1) → err.IsNotExist = true →
      r.runTarget t w = r.commandExecuter.Execute t w1) ∧
    (r.fs.Stat t.name w = (.ok ⟨false⟩, w1) →
      r.runTarget t w = r.commandExecuter.Execute t w1) := by
  have h1 : ForgeFileTargetTypeDirectory ≠ ForgeFileTargetTypeVirtual := by decide
  have h2 : ForgeFileTargetTypeDirectory ≠ ForgeFileTargetTypeFile := by decide
  refine ⟨fun h => ?_, fun err h he => ?_, fun h => ?_⟩
  · simp [Runner.runTarget, Runner.isDirectory, ht, Deref, h1, h2, h]
  · simp [Runner.runTarget, Runner.isDirectory, ht, Deref, h1, h2, h, ignoreNotFound, he]
  · simp [Runner.runTarget, Runner.isDirectory, ht, Deref, h1, h2, h]

/-- C9 on the example runner: with a directory at `D` the directory target `D`
is skipped after one `Stat`; with nothing at `D`, and with a file at `D`, the
executor is called once after the `Stat`. -/
theorem C9_directory_target_witness :
    (exRunner [("D", true)] []).runTarget (exTyped "directory" "D") [] = (none, [.Stat "D"]) ∧
    (exRunner [] []).runTarget (exTyped "directory" "D") [] =
      (none, [.Stat "D", .Execute "D"]) ∧
    (exRunner [("D", false)] []).runTarget (exTyped "directory" "D") [] =
      (none, [.Stat "D", .Execute "D"]) :=
  ⟨(C9_directory_target (exRunner [("D", true)] []) (exTyped "directory" "D") (by decide) []
      [.Stat "D"]).1 (by decide),
   (C9_directory_target (exRunner [] []) (exTyped "directory" "D") (by decide) []
      [.Stat "D"]).2.1 (.PathError "stat" "D" .ErrNotExist) (by decide) (by decide),
   (C9_directory_target (exRunner [("D", false)] []) (exTyped "directory" "D") (by decide) []
      [.Stat "D"]).2.2 (by decide)⟩

/-- C11: `NewRunner` builds a runner with the defaults, applies the options
and then returns the nil pointer, whatever the options are; `Run` through
that pointer panics as soon as a chain is resolved (here for the request `B`
on the example graph) instead of executing it. -/
theorem C11_NewRunner_returns_nil :
    (∀ (W : Type) (os : OS W) (osFs : Fs W) (opts : List (RunnerOption W)),
      NewRunner os osFs opts = none) ∧
    (∀ (W : Type) (os : OS W) (osFs : Fs W) (e : CommandExecuter W) (w : W),
      Runner.RunPtr (NewRunner os osFs [WithExecuter e]) exGraph 2 ["B"] w =
        some (.panic "invalid memory address or nil pointer dereference")) :=
  ⟨fun _ _ _ _ => rfl, fun _ _ _ _ _ => rfl⟩

/-- C12: for a target whose type is set to a string other than `virtual`,
`file` and `directory`, `runTarget` fails with the error
`unkown type '<type>' for target '<name>'`, which names the type string and
the target name, and returns the world as it was, whatever the executor is,
which is therefore not called.  A target whose type is unset, like one of
type `virtual`, is handed to the executor and `runTarget` returns the result
of that call. -/
theorem C12_unknown_target_type {W : Type} (r : Runner W) (t : Target) (w : W) :
    (∀ ty, t.toForgeFileTarget.Type_ = some ty → ty ≠ "virtual" → ty ≠ "file" →
      ty ≠ "directory" →
      r.runTarget t w =
        (some (.New ("unkown type '" ++ ty ++ "' for target '" ++ t.name ++ "'")), w)) ∧
    (t.toForgeFileTarget.Type_ = none → r.runTarget t w = r.commandExecuter.Execute t w) ∧
    (t.toForgeFileTarget.Type_ = some "virtual" →
      r.runTarget t w = r.commandExecuter.Execute t w) := by
  refine ⟨fun ty ht h1 h2 h3 => ?_, fun ht => ?_, fun ht => ?_⟩
  · simp [Runner.runTarget, ht, Deref, ForgeFileTargetTypeVirtual, ForgeFileTargetTypeFile,
      ForgeFileTargetTypeDirectory, h1, h2, h3, errInvalidTargetType]
  · simp [Runner.runTarget, ht, Deref]
  · simp [Runner.runTarget, ht, Deref, ForgeFileTargetTypeVirtual]

/-- C12 on the example runner: the type `symlink` makes `runTarget` fail
without any call, an unset type leads to one call of the executor. -/
theorem C12_unknown_target_type_witness :
    (exRunner [] []).runTarget (exTyped "symlink" "L") [] =
      (some (.New "unkown type 'symlink' for target 'L'"), []) ∧
    (exRunner [] []).runTarget ⟨exA, "A"⟩ [] = (none, [.Execute "A"]) :=
  ⟨(C12_unknown_target_type (exRunner [] []) (exTyped "symlink" "L") []).1 "symlink" rfl
      (by decide) (by decide) (by decide),
   (C12_unknown_target_type (exRunner [] []) ⟨exA, "A"⟩ []).2.1 rfl⟩

theorem dryRun_executeLoop_eq_foldl {W : Type} (log : Logger W)
    (cmds : List ForgeFileCommand) :
    ∀ w, DryRunexecutor.ExecuteLoop log cmds w =
      (cmds.map ForgeFileCommand.GetCommand).foldl (fun w msg => log.Info msg w) w := by
  induction cmds with
  | nil => intro w; rfl
  | cons cmd cmds ih =>
    intro w
    rw [DryRunexecutor.ExecuteLoop, ih]
    rfl

theorem dryRun_executeLoop_record (cmds : List ForgeFileCommand) :
    ∀ w, DryRunexecutor.ExecuteLoop exInfoLogger cmds w =
      w ++ cmds.map ForgeFileCommand.GetCommand := by
  induction cmds with
  | nil => intro w; simp [DryRunexecutor.ExecuteLoop]
  | cons cmd cmds ih =>
    intro w
    rw [DryRunexecutor.ExecuteLoop, ih]
    simp [exInfoLogger]

/-- C13: for every target and every logger, `DryRunexecutor.Execute` returns
success, and the world it leaves is the one obtained by sending, in command
order, the `GetCommand` text of each command to the `Info` sink and doing
nothing else.  With the logger that records the messages sent to `Info`, the
messages added are exactly the list of the commands mapped through
`GetCommand`. -/
theorem C13_dry_run_logs_commands :
    (∀ (W : Type) (log : Logger W) (t : Target) (w : W),
      DryRunexecutor.Execute log t w =
        (none, (t.toForgeFileTarget.Commands.map ForgeFileCommand.GetCommand).foldl
          (fun w msg => log.Info msg w) w)) ∧
    (∀ (t : Target) (w : List String),
      DryRunexecutor.Execute exInfoLogger t w =
        (none, w ++ t.toForgeFileTarget.Commands.map ForgeFileCommand.GetCommand)) :=
  ⟨fun _ log t w => by rw [DryRunexecutor.Execute, dryRun_executeLoop_eq_foldl],
   fun t w => by rw [DryRunexecutor.Execute, dryRun_executeLoop_record]⟩

theorem hasPrefix_marker (s : String) : HasPrefix ("?" ++ s) CommandIgnoreErrorPrefix = true := by
  have h : ("?" ++ s).data = '?' :: s.data := by rw [String.data_append]; rfl
  simp [HasPrefix, CommandIgnoreErrorPrefix, h, List.isPrefixOf]

theorem hasPrefix_marker_inv {c : String} (h : HasPrefix c CommandIgnoreErrorPrefix = true) :
    c = "?" ++ String.mk (c.data.drop 1) := by
  have hd : c.data = '?' :: c.data.drop 1 := by
    unfold HasPrefix CommandIgnoreErrorPrefix at h
    cases hc : c.data with
    | nil => simp [hc, List.isPrefixOf] at h
    | cons x xs =>
      simp [hc, List.isPrefixOf] at h
      simp
      exact h.symm
  apply String.ext
  rw [String.data_append]
  exact hd

/-- C14: for every string `s`, `ShouldIgnoreError ("?" ++ s)` is true and
`GetCommand ("?" ++ s) = s`, so exactly one leading marker is stripped; for
every command `c` that does not start with `?`, `ShouldIgnoreError c` is false
and `GetCommand c = c`; and every command `c` equals
`(if ShouldIgnoreError c then "?" else "") ++ GetCommand c`. -/
theorem C14_marker_roundtrip :
    (∀ s : String, ForgeFileCommand.ShouldIgnoreError ("?" ++ s) = true ∧
      ForgeFileCommand.GetCommand ("?" ++ s) = s) ∧
    (∀ c : ForgeFileCommand, (∀ s : String, c ≠ "?" ++ s) →
      ForgeFileCommand.ShouldIgnoreError c = false ∧ ForgeFileCommand.GetCommand c = c) ∧
    (∀ c : ForgeFileCommand,
      c = (if ForgeFileCommand.ShouldIgnoreError c then "?" else "") ++
        ForgeFileCommand.GetCommand c) := by
  refine ⟨fun s => ⟨hasPrefix_marker s, ?_⟩, fun c hc => ?_, fun c => ?_⟩
  · have h : ("?" ++ s).data = '?' :: s.data := by rw [String.data_append]; rfl
    simp [ForgeFileCommand.GetCommand, hasPrefix_marker, h]
  · have hp : HasPrefix c CommandIgnoreErrorPrefix = false := by
      cases hh : HasPrefix c CommandIgnoreErrorPrefix with
      | false => rfl
      | true => exact absurd (hasPrefix_marker_inv hh) (hc _)
    simp [ForgeFileCommand.ShouldIgnoreError, ForgeFileCommand.GetCommand, hp]
  · cases hh : HasPrefix c CommandIgnoreErrorPrefix with
    | false =>
      simp only [ForgeFileCommand.ShouldIgnoreError, ForgeFileCommand.GetCommand, hh]
      apply String.ext
      simp [String.data_append]
    | true =>
      simp only [ForgeFileCommand.ShouldIgnoreError, ForgeFileCommand.GetCommand, hh]
      exact hasPrefix_marker_inv hh

/-- C14 on examples: `??x` loses one marker only, and `echo ?` is left as it
is. -/
theorem C14_marker_roundtrip_witness :
    ForgeFileCommand.GetCommand ("?" ++ "?x") = "?x" ∧
    ForgeFileCommand.ShouldIgnoreError "echo ?" = false ∧
    ForgeFileCommand.GetCommand "echo ?" = "echo ?" :=
  ⟨(C14_marker_roundtrip.1 "?x").2,
   C14_marker_roundtrip.2.1 "echo ?" (fun s h => by
     have hd := congrArg String.data h
     rw [String.data_append, show "echo ?".data = ['e', 'c', 'h', 'o', ' ', '?'] from rfl,
       show "?".data = ['?'] from rfl] at hd
     simp at hd)⟩

/-! ## Theorems on termination -/

theorem mem_keys_of_lookup {ff : ForgeFile} {name : String} {ft : ForgeFileTarget}
    (h : ff.lookup name = some ft) : name ∈ ff.map Prod.fst := by
  induction ff with
  | nil => simp [List.lookup] at h
  | cons kv ff ih =>
    obtain ⟨k, v⟩ := kv
    by_cases hk : name = k
    · simp [hk]
    · have hb : (name == k) = false := by simpa using hk
      simp only [List.lookup, hb] at h
      simp [ih h]

theorem ancestors_nil (ff : ForgeFile) (name : String) : Ancestors ff [] name :=
  ⟨List.nodup_nil, by simp, by simp⟩

theorem ancestors_length_le {ff : ForgeFile} {anc : List String} {name : String}
    (h : Ancestors ff anc name) : anc.length ≤ ff.length := by
  have := (h.1.subperm h.2.1).length_le
  simpa using this

theorem ancestors_extend {ff : ForgeFile} (hac : Acyclic ff) {anc : List String}
    {name : String} (h : Ancestors ff anc name) {ft : ForgeFileTarget}
    (hl : ff.lookup name = some ft) {dep : String} (hd : dep ∈ ft.DependsOn) :
    Ancestors ff (name :: anc) dep := by
  obtain ⟨h1, h2, h3⟩ := h
  have hstep : TransDep ff name dep := Relation.TransGen.single ⟨ft, hl, hd⟩
  refine ⟨List.nodup_cons.2 ⟨fun hm => hac name (h3 name hm), h1⟩, ?_, ?_⟩
  · intro a ha
    rcases List.mem_cons.1 ha with rfl | ha
    · exact mem_keys_of_lookup hl
    · exact h2 a ha
  · intro a ha
    rcases List.mem_cons.1 ha with rfl | ha
    · exact hstep
    · exact Relation.TransGen.trans (h3 a ha) hstep

theorem resolveDeps_returns (recurse : String → TargetChain → Resolution) (name : String)
    (deps : List String) (h : ∀ d ∈ deps, ∀ resolved, recurse d resolved ≠ none) :
    ∀ resolved, resolveDeps recurse name deps resolved ≠ none := by
  induction deps with
  | nil => intro resolved; simp [resolveDeps]
  | cons dep deps ih =>
    intro resolved
    have ih1 := ih (fun d hd => h d (List.mem_cons_of_mem _ hd))
    rw [resolveDeps]
    split_ifs with h1 h2
    · simp
    · exact ih1 resolved
    · cases hr : recurse dep resolved with
      | none => exact absurd hr (h dep (List.mem_cons_self _ _) resolved)
      | some res =>
        cases res with
        | error e => simp
        | ok c1 => exact ih1 c1

/-- In an acyclic graph the stack of targets under resolution holds distinct
keys, so its height is bounded by the number of keys and the fuel
`ff.length + 1` is never used up. -/
theorem resolveTarget_returns {ff : ForgeFile} (hac : Acyclic ff) :
    ∀ (k : Nat) (anc : List String) (name : String) (resolved : TargetChain),
      Ancestors ff anc name → ff.length ≤ k + anc.length →
      resolveTarget ff (k + 1) name resolved ≠ none := by
  intro k
  induction k with
  | zero =>
    intro anc name resolved ha hk
    rw [resolveTarget]
    cases hl : ff.lookup name with
    | none => simp
    | some ft =>
      exfalso
      have hn : name ∉ anc := fun hm => hac name (ha.2.2 name hm)
      have hnd : (name :: anc).Nodup := List.nodup_cons.2 ⟨hn, ha.1⟩
      have hsub : name :: anc ⊆ ff.map Prod.fst := by
        intro a hm
        rcases List.mem_cons.1 hm with rfl | hm
        · exact mem_keys_of_lookup hl
        · exact ha.2.1 a hm
      have := (hnd.subperm hsub).length_le
      simp at this
      omega
  | succ k ih =>
    intro anc name resolved ha hk
    rw [resolveTarget]
    cases hl : ff.lookup name with
    | none => simp
    | some ft =>
      have hdeps : ∀ d ∈ ft.DependsOn, ∀ resolved, resolveTarget ff (k + 1) d resolved ≠ none :=
        fun d hd resolved1 =>
          ih (name :: anc) d resolved1 (ancestors_extend hac ha hl hd) (by simp; omega)
      have := resolveDeps_returns (resolveTarget ff (k + 1)) name ft.DependsOn hdeps resolved
      cases hr : resolveDeps (resolveTarget ff (k + 1)) name ft.DependsOn resolved with
      | none => exact absurd hr this
      | some res =>
        cases res with
        | error e => simp [hr]
        | ok c1 => simp [hr]

theorem buildTargetChainLoop_returns {ff : ForgeFile} (hac : Acyclic ff) (fuel : Nat)
    (hf : ff.length < fuel) (targets : List String) :
    ∀ resolved, buildTargetChainLoop ff fuel targets resolved ≠ none := by
  obtain ⟨k, rfl⟩ : ∃ k, fuel = k + 1 := ⟨fuel - 1, by omega⟩
  induction targets with
  | nil => intro resolved; simp [buildTargetChainLoop]
  | cons t targets ih =>
    intro resolved
    rw [buildTargetChainLoop]
    cases hr : resolveTarget ff (k + 1) t resolved with
    | none =>
      exact absurd hr (resolveTarget_returns hac k [] t resolved (ancestors_nil ff t)
        (by simp; omega))
    | some res =>
      cases res with
      | error e => simp
      | ok c1 => exact ih c1

theorem acc_of_acyclic {ff : ForgeFile} (hac : Acyclic ff) :
    ∀ (k : Nat) (anc : List String) (name : String),
      Ancestors ff anc name → ff.length ≤ k + anc.length →
      Acc (fun d t => DirectDep ff t d) name := by
  intro k
  induction k with
  | zero =>
    intro anc name ha hk
    refine Acc.intro _ (fun d hd => ?_)
    obtain ⟨ft, hl, hdm⟩ := hd
    have := ancestors_length_le (ancestors_extend hac ha hl hdm)
    simp at this
    omega
  | succ k ih =>
    intro anc name ha hk
    refine Acc.intro _ (fun d hd => ?_)
    obtain ⟨ft, hl, hdm⟩ := hd
    exact ih (name :: anc) d (ancestors_extend hac ha hl hdm) (by simp; omega)

theorem resolveTarget_exCycle (fuel : Nat) :
    resolveTarget exCycle fuel "A" [] = none ∧ resolveTarget exCycle fuel "B" [] = none := by
  induction fuel with
  | zero => exact ⟨rfl, rfl⟩
  | succ fuel ih =>
    have hA : List.lookup "A" exCycle = some ⟨none, ["B"], [], []⟩ := by decide
    have hB : List.lookup "B" exCycle = some ⟨none, ["A"], [], []⟩ := by decide
    have hBA : ¬ ("B" = "A") := by decide
    have hAB : ¬ ("A" = "B") := by decide
    constructor
    · rw [resolveTarget]
      simp only [hA, resolveDeps, hBA, if_false, TargetChain.ContainsTarget, ih.2]
      simp
    · rw [resolveTarget]
      simp only [hB, resolveDeps, hAB, if_false, TargetChain.ContainsTarget, ih.1]
      simp

/-- C18: in the graph where `A` depends on `B` and `B` on `A`, each target
lists only the other one, so the self-dependency check compares different
names; resolving the request `A` returns neither a chain nor an error with
any fuel, at the level of `resolveTarget` and of `buildTargetChain`. -/
theorem C18_two_cycle_never_returns :
    List.lookup "A" exCycle = some ⟨none, ["B"], [], []⟩ ∧
    List.lookup "B" exCycle = some ⟨none, ["A"], [], []⟩ ∧
    (∀ fuel, resolveTarget exCycle fuel "A" [] = none) ∧
    (∀ fuel, buildTargetChain exCycle fuel ["A"] = none) := by
  refine ⟨by decide, by decide, fun fuel => (resolveTarget_exCycle fuel).1, fun fuel => ?_⟩
  simp [buildTargetChain, buildTargetChainLoop, (resolveTarget_exCycle fuel).1]

/-- C19: for every graph whose dependency relation is acyclic and every
request list, resolution terminates: with any fuel above the number of
entries of the graph, `buildTargetChain` returns a chain or an error.  The
recursion is well-founded: the relation that puts a dependency below the
target that lists it is well-founded. -/
theorem C19_acyclic_resolution_terminates (ff : ForgeFile) (hac : Acyclic ff) :
    (∀ (targets : List String) (fuel : Nat), ff.length < fuel →
      (∃ ch, buildTargetChain ff fuel targets = some (.ok ch)) ∨
      (∃ err, buildTargetChain ff fuel targets = some (.error err))) ∧
    WellFounded (fun d t => DirectDep ff t d) := by
  constructor
  · intro targets fuel hf
    cases hr : buildTargetChain ff fuel targets with
    | none => exact absurd hr (buildTargetChainLoop_returns hac fuel hf targets [])
    | some res =>
      cases res with
      | error e => exact Or.inr ⟨e, rfl⟩
      | ok ch => exact Or.inl ⟨ch, rfl⟩
  · exact ⟨fun name => acc_of_acyclic hac ff.length [] name (ancestors_nil ff name) (by simp)⟩

/-- C19 on the example graph, which is acyclic and has two entries: with fuel
3 the request `B, A` yields a chain. -/
theorem C19_acyclic_resolution_terminates_witness :
    Acyclic exGraph ∧
    ((∃ ch, buildTargetChain exGraph 3 ["B", "A"] = some (.ok ch)) ∨
      (∃ err, buildTargetChain exGraph 3 ["B", "A"] = some (.error err))) :=
  ⟨acyclic_exGraph,
    (C19_acyclic_resolution_terminates exGraph acyclic_exGraph).1 ["B", "A"] 3 (by decide)⟩

/-! ## Theorems on missing dependencies -/

theorem acyclic_of_flat {ff : ForgeFile}
    (h : ∀ t d, DirectDep ff t d → ∀ e, ¬ DirectDep ff d e) : Acyclic ff := by
  intro t ht
  obtain ⟨b, htb, hbt⟩ := Relation.TransGen.head'_iff.1 ht
  rcases Relation.ReflTransGen.cases_head hbt with rfl | ⟨e, hbe, _⟩
  · exact h _ _ htb _ htb
  · exact h _ _ htb _ hbe

theorem directDep_of_single {name : String} {ft : ForgeFileTarget} {t d : String}
    (h : DirectDep [(name, ft)] t d) : t = name ∧ d ∈ ft.DependsOn := by
  obtain ⟨ft1, hl, hd⟩ := h
  by_cases hk : t = name
  · subst hk
    simp [List.lookup] at hl
    subst hl
    exact ⟨rfl, hd⟩
  · have hb : (t == name) = false := by simpa using hk
    simp [List.lookup, hb] at hl

theorem acyclic_exMissing : Acyclic exMissing := by
  apply acyclic_of_flat
  intro t d h e he
  have h1 := (directDep_of_single h).2
  have h2 := (directDep_of_single he).1
  subst h2
  simp at h1

/-- A chain returned by `buildTargetChain` holds, for every requested name,
every name that it reaches; so every such name is a key of the graph. -/
theorem reached_is_key {ff : ForgeFile} {fuel : Nat} {targets : List String}
    {ch : TargetChain} (h : buildTargetChain ff fuel targets = some (.ok ch))
    {t d : String} (ht : t ∈ targets) (hd : TransDep ff t d) :
    ∃ x ∈ ch, x.name = d ∧ ∃ ft, ff.lookup d = some ft := by
  obtain ⟨hinv, _, hall⟩ := buildTargetChainLoop_ok ff fuel targets [] ch h (depsFirst_nil ff)
  obtain ⟨i, x, _, hix, hname⟩ := (containsTarget_iff_namedBefore ch t).1 (hall t ht)
  rw [← hname] at hd
  obtain ⟨j, y, _, hjy, hy⟩ := depsFirst_trans hinv hix hd
  obtain ⟨ft, hl, _⟩ := hinv j y hjy
  exact ⟨y, List.getElem?_mem hjy, hy, ft, hy ▸ hl⟩

/-- C15, as refuted: the graph is acyclic and the requested `B` reaches the
absent names `A1` and `A2`; resolution fails with the error for `A1`, and with
no fuel with a target-not-found error for `A2`. -/
theorem C15_other_missing_dependency_reported :
    Acyclic exMissing ∧ TransDep exMissing "B" "A2" ∧ List.lookup "A2" exMissing = none ∧
    buildTargetChain exMissing 2 ["B"] =
      some (.error (.Wrapf (.Wrapf (.New (errTargetNotFound "A1")) (errResolveDependency "A1"))
        (errResolveTarget "B"))) ∧
    ¬ ∃ fuel err, buildTargetChain exMissing fuel ["B"] = some (.error err) ∧
      err.Cause = .New (errTargetNotFound "A2") := by
  refine ⟨acyclic_exMissing,
    Relation.TransGen.single ⟨⟨none, ["A1", "A2"], [], []⟩, by decide, by decide⟩, by decide,
    by decide, ?_⟩
  rintro ⟨fuel, err, h, hc⟩
  rcases fuel with _ | _ | fuel
  · have h0 : buildTargetChain exMissing 0 ["B"] = none := by decide
    rw [h0] at h
    cases h
  · have h1 : buildTargetChain exMissing 1 ["B"] = none := by decide
    rw [show 0 + 1 = 1 from rfl, h1] at h
    cases h
  · have hx : buildTargetChain exMissing (fuel + 2) ["B"] =
        some (.error (.Wrapf (.Wrapf (.New (errTargetNotFound "A1"))
          (errResolveDependency "A1")) (errResolveTarget "B"))) := rfl
    rw [hx] at h
    cases h
    exact absurd hc (by decide)

theorem resolveDeps_error_shape {ff : ForgeFile}
    {recurse : String → TargetChain → Resolution}
    (hrec : ∀ dep resolved e, recurse dep resolved = some (.error e) →
      (ff.lookup dep = none ∧ e = .New (errTargetNotFound dep)) ∨
      ∃ path d1, ff.lookup d1 = none ∧ DepPath ff dep path d1 ∧ e = missingDepError path d1)
    (name : String) (deps : List String) (hself : ∀ dep ∈ deps, dep ≠ name)
    (hdir : ∀ dep ∈ deps, DirectDep ff name dep) :
    ∀ resolved e, resolveDeps recurse name deps resolved = some (.error e) →
      ∃ path d1, ff.lookup d1 = none ∧ DepPath ff name path d1 ∧
        e = missingDepError path d1 := by
  induction deps with
  | nil =>
    intro resolved e h
    simp [resolveDeps] at h
  | cons dep deps ih =>
    intro resolved e h
    have ih1 := ih (fun m hm => hself m (List.mem_cons_of_mem _ hm))
      (fun m hm => hdir m (List.mem_cons_of_mem _ hm))
    rw [resolveDeps] at h
    split_ifs at h with h1 h2
    · exact absurd h1 (hself dep (List.mem_cons_self _ _))
    · exact ih1 resolved e h
    · cases hr : recurse dep resolved with
      | none => simp [hr] at h
      | some res =>
        cases res with
        | error e0 =>
          simp only [hr, Option.some.injEq, Except.error.injEq] at h
          have hdd := hdir dep (List.mem_cons_self _ _)
          rcases hrec dep resolved e0 hr with ⟨hl, he0⟩ | ⟨path, d1, hl, hp, he0⟩
          · exact ⟨[], dep, hl, hdd, by rw [← h, he0]; rfl⟩
          · exact ⟨dep :: path, d1, hl, ⟨hdd, hp⟩, by rw [← h, he0]; rfl⟩
        | ok c1 =>
          simp only [hr] at h
          exact ih1 c1 e h

/-- In an acyclic graph the only errors of `resolveTarget` are target-not-found
errors: for the name itself, or for an absent name met along a dependency
path, wrapped with the dependency contexts of that path. -/
theorem resolveTarget_error_shape {ff : ForgeFile} (hac : Acyclic ff) (fuel : Nat) :
    ∀ name resolved e, resolveTarget ff fuel name resolved = some (.error e) →
      (ff.lookup name = none ∧ e = .New (errTargetNotFound name)) ∨
      ∃ path d1, ff.lookup d1 = none ∧ DepPath ff name path d1 ∧
        e = missingDepError path d1 := by
  induction fuel with
  | zero =>
    intro name resolved e h
    simp [resolveTarget] at h
  | succ fuel ih =>
    intro name resolved e h
    rw [resolveTarget] at h
    cases hl : ff.lookup name with
    | none =>
      simp only [hl, Option.some.injEq, Except.error.injEq] at h
      exact Or.inl ⟨rfl, h.symm⟩
    | some ft =>
      simp only [hl] at h
      cases hr : resolveDeps (resolveTarget ff fuel) name ft.DependsOn resolved with
      | none => simp [hr] at h
      | some res =>
        cases res with
        | ok c1 => simp [hr] at h
        | error e0 =>
          simp only [hr, Option.some.injEq, Except.error.injEq] at h
          subst h
          exact Or.inr (resolveDeps_error_shape ih name ft.DependsOn
            (fun dep hdep hEq =>
              hac name (Relation.TransGen.single ⟨ft, hl, by rw [← hEq]; exact hdep⟩))
            (fun dep hdep => ⟨ft, hl, hdep⟩) resolved e0 hr)

/-- C15, amended: let `d` be a name that is not a key of the graph.
First, if the graph is acyclic and a requested target reaches `d`, directly or
transitively, resolution fails: with any fuel above the number of entries of
the graph it returns an error and no chain.  That error belongs to the first
requested name `r` that fails to resolve (the names requested before `r`
resolve) and is a target-not-found error wrapped with
`failed to resolve target 'r'`: either `r` itself is absent, or an absent
name `d1`, which need not be `d`, is met along a dependency path from `r`,
and the error is `target 'd1' not found` wrapped with
`failed to resolve dependency 'd1'` and with the dependency context of each
name of the path.  Second, if a visited target `name` lists `d` after entries
that are all in the chain already or resolve, `resolveTarget` for `name` fails
with `target 'd' not found` wrapped with `failed to resolve dependency 'd'`.
Third, if the names requested before `r` resolve and `r` lists `d` after
entries that are all in the chain already or resolve, `buildTargetChain` fails
with that error wrapped with `failed to resolve target 'r'`. -/
theorem C15_missing_dependency_fails (ff : ForgeFile) (d : String)
    (hd : ff.lookup d = none) :
    (Acyclic ff → ∀ (targets : List String) (t : String) (fuel : Nat), t ∈ targets →
      TransDep ff t d → ff.length < fuel →
      ∃ err, buildTargetChain ff fuel targets = some (.error err) ∧
        ∃ pre r post ch, targets = pre ++ r :: post ∧
          buildTargetChain ff fuel pre = some (.ok ch) ∧
          ((ff.lookup r = none ∧
              err = .Wrapf (.New (errTargetNotFound r)) (errResolveTarget r)) ∨
            ∃ path d1, ff.lookup d1 = none ∧ DepPath ff r path d1 ∧
              err = .Wrapf (missingDepError path d1) (errResolveTarget r))) ∧
    (∀ (name : String) (ft : ForgeFileTarget) (pre post : List String) (fuel : Nat)
      (resolved ch : TargetChain), ff.lookup name = some ft →
      ft.DependsOn = pre ++ d :: post →
      resolveDeps (resolveTarget ff (fuel + 1)) name pre resolved = some (.ok ch) →
      ch.ContainsTarget d = false →
      resolveTarget ff (fuel + 2) name resolved =
        some (.error (.Wrapf (.New (errTargetNotFound d)) (errResolveDependency d)))) ∧
    (∀ (targets preR postR : List String) (r : String) (ft : ForgeFileTarget)
      (pre post : List String) (fuel : Nat) (ch0 ch : TargetChain),
      targets = preR ++ r :: postR →
      buildTargetChain ff (fuel + 2) preR = some (.ok ch0) →
      ff.lookup r = some ft → ft.DependsOn = pre ++ d :: post →
      resolveDeps (resolveTarget ff (fuel + 1)) r pre ch0 = some (.ok ch) →
      buildTargetChain ff (fuel + 2) targets =
        some (.error (.Wrapf (.Wrapf (.New (errTargetNotFound d)) (errResolveDependency d))
          (errResolveTarget r)))) := by
  have hexact : ∀ (name : String) (ft : ForgeFileTarget) (pre post : List String)
      (fuel : Nat) (resolved ch : TargetChain), ff.lookup name = some ft →
      ft.DependsOn = pre ++ d :: post →
      resolveDeps (resolveTarget ff (fuel + 1)) name pre resolved = some (.ok ch) →
      ch.ContainsTarget d = false →
      resolveTarget ff (fuel + 2) name resolved =
        some (.error (.Wrapf (.New (errTargetNotFound d)) (errResolveDependency d))) := by
    intro name ft pre post fuel resolved ch hl hsplit hpre hnc
    have hne : d ≠ name := by
      rintro rfl
      rw [hd] at hl
      cases hl
    rw [resolveTarget]
    simp only [hl]
    rw [hsplit, resolveDeps_append _ name pre (d :: post) resolved ch hpre, resolveDeps]
    simp [hne, hnc, resolveTarget, hd]
  refine ⟨?_, hexact, ?_⟩
  · intro hac targets t fuel ht htd hf
    cases hr : buildTargetChain ff fuel targets with
    | none => exact absurd hr (buildTargetChainLoop_returns hac fuel hf targets [])
    | some res =>
      cases res with
      | error e =>
        obtain ⟨pre, r, post, ch, e1, hsplit, hpre, hr1, herr⟩ :=
          buildTargetChainLoop_error ff fuel targets [] e hr
        refine ⟨e, rfl, pre, r, post, ch, hsplit, hpre, ?_⟩
        rcases resolveTarget_error_shape hac fuel r ch e1 hr1 with
          ⟨hl, he⟩ | ⟨path, d1, hl, hp, he⟩
        · exact Or.inl ⟨hl, by rw [herr, he]⟩
        · exact Or.inr ⟨path, d1, hl, hp, by rw [herr, he]⟩
      | ok ch =>
        obtain ⟨_, _, _, ft, hl⟩ := reached_is_key hr ht htd
        rw [hd] at hl
        cases hl
  · intro targets preR postR r ft pre post fuel ch0 ch hsplit hpreR hl hdeps hpre
    subst hsplit
    have hinv0 := (buildTargetChainLoop_ok ff (fuel + 2) preR [] ch0 hpreR (depsFirst_nil ff)).1
    have hinv := (resolveDeps_ok (resolveTarget_ok ff (fuel + 1)) r pre ch0 ch hpre hinv0).1
    have hnc : ch.ContainsTarget d = false := by
      cases hc : ch.ContainsTarget d with
      | false => rfl
      | true =>
        obtain ⟨j, x, _, hjx, hname⟩ := (containsTarget_iff_namedBefore ch d).1 hc
        obtain ⟨ft1, hl1, _⟩ := hinv j x hjx
        rw [hname, hd] at hl1
        cases hl1
    exact buildTargetChainLoop_first_failure ff (fuel + 2) preR postR r [] ch0 _ hpreR
      (hexact r ft pre post fuel ch0 ch hl hdeps hpre hnc)

/-- C15 on examples.  In the graph of the claim, where `B` depends on the
absent `A`, resolving `B` fails with `failed to resolve dependency 'A'` around
`target 'A' not found`, and the request `B` fails with the message
`failed to resolve target 'B': failed to resolve dependency 'A': target 'A'
not found`.  In the acyclic graph where `B` lists the absent `A1` and `A2`,
the request `B` returns a target-not-found error of the stated form. -/
theorem C15_missing_dependency_fails_witness :
    resolveTarget exMissingOne 2 "B" [] =
      some (.error (.Wrapf (.New (errTargetNotFound "A")) (errResolveDependency "A"))) ∧
    buildTargetChain exMissingOne 2 ["B"] =
      some (.error (.Wrapf (.Wrapf (.New (errTargetNotFound "A")) (errResolveDependency "A"))
        (errResolveTarget "B"))) ∧
    (Error.Wrapf (.Wrapf (.New (errTargetNotFound "A")) (errResolveDependency "A"))
        (errResolveTarget "B")).message =
      "failed to resolve target 'B': failed to resolve dependency 'A': target 'A' not found" ∧
    ∃ err, buildTargetChain exMissing 2 ["B"] = some (.error err) ∧
      ∃ pre r post ch, ["B"] = pre ++ r :: post ∧
        buildTargetChain exMissing 2 pre = some (.ok ch) ∧
        ((List.lookup r exMissing = none ∧
            err = .Wrapf (.New (errTargetNotFound r)) (errResolveTarget r)) ∨
          ∃ path d1, List.lookup d1 exMissing = none ∧ DepPath exMissing r path d1 ∧
            err = .Wrapf (missingDepError path d1) (errResolveTarget r)) :=
  ⟨(C15_missing_dependency_fails exMissingOne "A" (by decide)).2.1 "B" ⟨none, ["A"], [], []⟩
      [] [] 0 [] [] (by decide) (by decide) (by decide) (by decide),
   (C15_missing_dependency_fails exMissingOne "A" (by decide)).2.2 ["B"] [] [] "B"
      ⟨none, ["A"], [], []⟩ [] [] 0 [] [] (by decide) (by decide) (by decide) (by decide)
      (by decide),
   by decide,
   (C15_missing_dependency_fails exMissing "A2" (by decide)).1 acyclic_exMissing ["B"] "B" 2
      (by decide) (Relation.TransGen.single ⟨⟨none, ["A1", "A2"], [], []⟩, by decide, by decide⟩)
      (by decide)⟩

/-! ## Theorems on the content and the order of the chain -/

/-- C16: the file `out` exists and the file target `out` depends on the
virtual target `dep`; running the request `out` stat-checks and skips `out`,
but before that it executes `dep`. -/
theorem C16_dependencies_of_existing_file_executed :
    List.lookup "out" exFileGraph = some ⟨some "file", ["dep"], ["touch out"], []⟩ ∧
    (exRunner [("out", false)] []).Run exFileGraph 2 ["out"] [] =
      some (none, [.Execute "dep", .Stat "out"]) := by
  decide

theorem buildTargetChainLoop_split (ff : ForgeFile) (fuel : Nat) (r1 r2 : List String) :
    ∀ resolved ch, buildTargetChainLoop ff fuel (r1 ++ r2) resolved = some (.ok ch) →
      ∃ ch1, buildTargetChainLoop ff fuel r1 resolved = some (.ok ch1) ∧
        buildTargetChainLoop ff fuel r2 ch1 = some (.ok ch) := by
  induction r1 with
  | nil =>
    intro resolved ch h
    exact ⟨resolved, rfl, h⟩
  | cons t r1 ih =>
    intro resolved ch h
    rw [List.cons_append, buildTargetChainLoop] at h
    rw [buildTargetChainLoop]
    cases hr : resolveTarget ff fuel t resolved with
    | none => simp [hr] at h
    | some res =>
      cases res with
      | error e => simp [hr] at h
      | ok c1 =>
        simp only [hr] at h ⊢
        exact ih c1 ch h

theorem buildTargetChainLoop_flat (ff : ForgeFile) (fuel : Nat) (targets : List String)
    (h : ∀ n ∈ targets, ∃ ft, ff.lookup n = some ft ∧ ft.DependsOn = []) :
    ∀ resolved, ∃ ch, buildTargetChainLoop ff (fuel + 1) targets resolved = some (.ok ch) ∧
      ch.map Target.name = resolved.map Target.name ++ targets := by
  induction targets with
  | nil =>
    intro resolved
    exact ⟨resolved, rfl, by simp⟩
  | cons t targets ih =>
    intro resolved
    obtain ⟨ft, hl, hdeps⟩ := h t (List.mem_cons_self _ _)
    obtain ⟨ch, hch, hnames⟩ :=
      ih (fun n hn => h n (List.mem_cons_of_mem _ hn)) (resolved ++ [⟨ft, t⟩])
    refine ⟨ch, ?_, ?_⟩
    · rw [buildTargetChainLoop, resolveTarget]
      simp only [hl, hdeps, resolveDeps]
      exact hch
    · rw [hnames]
      simp

/-- C17: requested targets contribute to the chain in the order of the
request list.  If resolving `r1 ++ r2` succeeds, then resolving `r1` succeeds
with the same fuel and its chain is a prefix of the chain for `r1 ++ r2`.  For
a list of distinct requested names that all exist and have no dependencies,
resolution succeeds and the names of the chain are the request list, in the
same order. -/
theorem C17_request_order (ff : ForgeFile) :
    (∀ (fuel : Nat) (r1 r2 : List String) (ch : TargetChain),
      buildTargetChain ff fuel (r1 ++ r2) = some (.ok ch) →
      ∃ ch1, buildTargetChain ff fuel r1 = some (.ok ch1) ∧ ch1 <+: ch) ∧
    (∀ (fuel : Nat) (targets : List String), targets.Nodup →
      (∀ n ∈ targets, ∃ ft, ff.lookup n = some ft ∧ ft.DependsOn = []) →
      ∃ ch, buildTargetChain ff (fuel + 1) targets = some (.ok ch) ∧
        ch.map Target.name = targets) := by
  constructor
  · intro fuel r1 r2 ch h
    obtain ⟨ch1, h1, h2⟩ := buildTargetChainLoop_split ff fuel r1 r2 [] ch h
    have hinv := (buildTargetChainLoop_ok ff fuel r1 [] ch1 h1 (depsFirst_nil ff)).1
    exact ⟨ch1, h1, (buildTargetChainLoop_ok ff fuel r2 ch1 ch h2 hinv).2.1⟩
  · intro fuel targets _ h
    obtain ⟨ch, hch, hnames⟩ := buildTargetChainLoop_flat ff fuel targets h []
    exact ⟨ch, hch, by simpa using hnames⟩

/-- C17 on the example graph: the chain of the request `A` is a prefix of the
chain `A, B` of the request `A, B`; and the request `A`, a name without
dependencies, yields a chain whose names are `A`. -/
theorem C17_request_order_witness :
    (∃ ch1, buildTargetChain exGraph 2 ["A"] = some (.ok ch1) ∧
      ch1 <+: [⟨exA, "A"⟩, ⟨exB, "B"⟩]) ∧
    (∃ ch, buildTargetChain exGraph 1 ["A"] = some (.ok ch) ∧ ch.map Target.name = ["A"]) :=
  ⟨(C17_request_order exGraph).1 2 ["A"] ["B"] [⟨exA, "A"⟩, ⟨exB, "B"⟩] (by decide),
   (C17_request_order exGraph).2 0 ["A"] (by decide)
     (fun n hn => ⟨exA, by rw [List.mem_singleton.1 hn]; decide, rfl⟩)⟩

theorem resolveDeps_within {ff : ForgeFile} {S : String → Prop}
    {recurse : String → TargetChain → Resolution}
    (hrec : ∀ dep resolved ch, recurse dep resolved = some (.ok ch) → S dep →
      (∀ t ∈ resolved, S t.name ∧ ff.lookup t.name = some t.toForgeFileTarget) →
      ∀ t ∈ ch, S t.name ∧ ff.lookup t.name = some t.toForgeFileTarget)
    (name : String) (deps : List String) :
    ∀ resolved ch, resolveDeps recurse name deps resolved = some (.ok ch) →
      (∀ d ∈ deps, S d) →
      (∀ t ∈ resolved, S t.name ∧ ff.lookup t.name = some t.toForgeFileTarget) →
      ∀ t ∈ ch, S t.name ∧ ff.lookup t.name = some t.toForgeFileTarget := by
  induction deps with
  | nil =>
    intro resolved ch h _ hres
    simp [resolveDeps] at h
    subst h
    exact hres
  | cons dep deps ih =>
    intro resolved ch h hS hres
    have hS1 : ∀ d ∈ deps, S d := fun d hd => hS d (List.mem_cons_of_mem _ hd)
    rw [resolveDeps] at h
    split_ifs at h with h1 h2
    · simp at h
    · exact ih resolved ch h hS1 hres
    · cases hr : recurse dep resolved with
      | none => simp [hr] at h
      | some res =>
        cases res with
        | error e => simp [hr] at h
        | ok c1 =>
          simp only [hr] at h
          exact ih c1 ch h hS1 (hrec dep resolved c1 hr (hS dep (List.mem_cons_self _ _)) hres)

theorem resolveTarget_within {ff : ForgeFile} {S : String → Prop}
    (hS : ∀ t d, S t → DirectDep ff t d → S d) (fuel : Nat) :
    ∀ name resolved ch, resolveTarget ff fuel name resolved = some (.ok ch) → S name →
      (∀ t ∈ resolved, S t.name ∧ ff.lookup t.name = some t.toForgeFileTarget) →
      ∀ t ∈ ch, S t.name ∧ ff.lookup t.name = some t.toForgeFileTarget := by
  induction fuel with
  | zero =>
    intro name resolved ch h
    simp [resolveTarget] at h
  | succ fuel ih =>
    intro name resolved ch h hname hres
    rw [resolveTarget] at h
    cases hl : ff.lookup name with
    | none => simp [hl] at h
    | some ft =>
      simp only [hl] at h
      cases hr : resolveDeps (resolveTarget ff fuel) name ft.DependsOn resolved with
      | none => simp [hr] at h
      | some res =>
        cases res with
        | error e => simp [hr] at h
        | ok c1 =>
          simp only [hr, Option.some.injEq, Except.ok.injEq] at h
          subst h
          have h1 := resolveDeps_within ih name ft.DependsOn resolved c1 hr
            (fun d hd => hS name d hname ⟨ft, hl, hd⟩) hres
          intro t ht
          rcases List.mem_append.1 ht with ht | ht
          · exact h1 t ht
          · simp at ht
            subst ht
            exact ⟨hname, hl⟩

theorem buildTargetChainLoop_within {ff : ForgeFile} {S : String → Prop}
    (hS : ∀ t d, S t → DirectDep ff t d → S d) (fuel : Nat) (targets : List String) :
    ∀ resolved ch, buildTargetChainLoop ff fuel targets resolved = some (.ok ch) →
      (∀ n ∈ targets, S n) →
      (∀ t ∈ resolved, S t.name ∧ ff.lookup t.name = some t.toForgeFileTarget) →
      ∀ t ∈ ch, S t.name ∧ ff.lookup t.name = some t.toForgeFileTarget := by
  induction targets with
  | nil =>
    intro resolved ch h _ hres
    simp [buildTargetChainLoop] at h
    subst h
    exact hres
  | cons n targets ih =>
    intro resolved ch h hn hres
    rw [buildTargetChainLoop] at h
    cases hr : resolveTarget ff fuel n resolved with
    | none => simp [hr] at h
    | some res =>
      cases res with
      | error e => simp [hr] at h
      | ok c1 =>
        simp only [hr] at h
        exact ih c1 ch h (fun m hm => hn m (List.mem_cons_of_mem _ hm))
          (resolveTarget_within hS fuel n resolved c1 hr (hn n (List.mem_cons_self _ _)) hres)

/-- C20: when `buildTargetChain` succeeds, the chain holds exactly the needed
targets: a name occurs in the chain if and only if it is requested or is a
direct or transitive dependency of a requested name, and every entry of the
chain pairs its name with the definition that the graph gives for that
name. -/
theorem C20_chain_is_exactly_needed (ff : ForgeFile) (fuel : Nat) (targets : List String)
    (ch : TargetChain) (h : buildTargetChain ff fuel targets = some (.ok ch)) :
    (∀ n, (∃ t ∈ ch, t.name = n) ↔ (n ∈ targets ∨ ∃ r ∈ targets, TransDep ff r n)) ∧
    (∀ t ∈ ch, ff.lookup t.name = some t.toForgeFileTarget) := by
  have hin := buildTargetChainLoop_within
    (S := fun n => n ∈ targets ∨ ∃ r ∈ targets, TransDep ff r n)
    (fun t d ht hd => by
      rcases ht with ht | ⟨r, hr, hrt⟩
      · exact Or.inr ⟨t, ht, Relation.TransGen.single hd⟩
      · exact Or.inr ⟨r, hr, Relation.TransGen.tail hrt hd⟩)
    fuel targets [] ch h (fun n hn => Or.inl hn) (by simp)
  refine ⟨fun n => ⟨?_, ?_⟩, fun t ht => (hin t ht).2⟩
  · rintro ⟨t, ht, rfl⟩
    exact (hin t ht).1
  · rintro (hn | ⟨r, hr, hrn⟩)
    · have := (buildTargetChainLoop_ok ff fuel targets [] ch h (depsFirst_nil ff)).2.2 n hn
      exact (containsTarget_iff ch n).1 this
    · obtain ⟨x, hx, hname, _⟩ := reached_is_key h hr hrn
      exact ⟨x, hx, hname⟩

/-- C20 on the example graph: the chain of the request `B` holds `A` and `B`
with their definitions, and the name `A` is in it as a dependency of `B`. -/
theorem C20_chain_is_exactly_needed_witness :
    buildTargetChain exGraph 2 ["B"] = some (.ok [⟨exA, "A"⟩, ⟨exB, "B"⟩]) ∧
    ((∃ t ∈ [(⟨exA, "A"⟩ : Target), ⟨exB, "B"⟩], t.name = "A") ↔
      ("A" ∈ ["B"] ∨ ∃ r ∈ ["B"], TransDep exGraph r "A")) ∧
    (∀ t ∈ [(⟨exA, "A"⟩ : Target), ⟨exB, "B"⟩],
      List.lookup t.name exGraph = some t.toForgeFileTarget) :=
  have h := C20_chain_is_exactly_needed exGraph 2 ["B"] [⟨exA, "A"⟩, ⟨exB, "B"⟩] (by decide)
  ⟨by decide, h.1 "A", h.2⟩

end Forge
